import Mathlib

/-!
Verification of the audio analysis/enhancement pipeline of
`audio_processing_service.py` (class `AudioProcessingService`).

Samples are idealized as elements of a linear ordered field (`ℝ` at the
top level of the pipeline; component definitions that use only field
operations and comparisons are stated generically, so that concrete
witnesses can be evaluated over `ℚ`).  The external numeric kernels the
service calls (the `noisereduce` primary denoiser, scipy's Butterworth
coefficient design together with `filtfilt`'s forward/backward pass, the
Savitzky-Golay smoother, and `librosa.resample`) are taken as function
parameters; the argument validation those kernels perform (which the
claims depend on: `0 < Wn < 1` for `butter`, the `padlen` bound of
`filtfilt`, the window-length bound of `savgol_filter`) is embedded
explicitly.  Python exceptions are modelled with `Except Unit`.
-/

set_option maxHeartbeats 1000000

/-- `np.mean` of a list: sum divided by length.  Used only where the list
is provably nonempty (NumPy returns NaN on an empty mean; where that case
is reachable in the source we use `npMeanOpt` instead). -/
def npMean {α : Type} [LinearOrderedField α] (l : List α) : α :=
  l.sum / l.length

/-- `np.mean` with NumPy's NaN behaviour made explicit: `none` models the
NaN produced by the mean of an empty array. -/
def npMeanOpt {α : Type} [LinearOrderedField α] (l : List α) : Option α :=
  if l.isEmpty then none else some (npMean l)

/-- `np.max` of a list (NumPy raises on an empty array; callers guard
emptiness, and the `[]` case of this function is never relied upon). -/
def npMax {α : Type} [LinearOrder α] [Zero α] : List α → α
  | [] => 0
  | a :: t => t.foldr max a

/-- `np.min` of a list (same conventions as `npMax`). -/
def npMin {α : Type} [LinearOrder α] [Zero α] : List α → α
  | [] => 0
  | a :: t => t.foldr min a

/-- Root mean square of a buffer: `np.sqrt(np.mean(y**2))`. -/
noncomputable def rms (l : List ℝ) : ℝ :=
  Real.sqrt (npMean (l.map (fun x => x ^ 2)))

/-- Lines 175-180 of `_normalize_audio`: peak normalization.  `np.max` on
an empty array raises, hence the error on the empty buffer; otherwise
divide by the peak and scale to 0.95 unless the peak is zero. -/
def peak_normalize {α : Type} [LinearOrderedField α] (y : List α) :
    Except Unit (List α) :=
  if y.isEmpty then .error () else
  let peak := npMax (y.map (fun x => |x|))
  if 0 < peak then .ok (y.map (fun x => x / peak * (95 / 100))) else .ok y

/-- `_normalize_audio` (lines 173-189): peak normalization followed by
RMS normalization towards `target_rms = 0.2`. -/
noncomputable def normalize_audio (y : List ℝ) : Except Unit (List ℝ) :=
  match peak_normalize y with
  | .error e => .error e
  | .ok y1 =>
    let current_rms := rms y1
    if 0 < current_rms then .ok (y1.map (fun x => x * (2 / 10 / current_rms)))
    else .ok y1

/-- The compression curve of `_apply_compression` (lines 204-208):
`np.where(env > threshold, threshold + (env - threshold) / ratio, env)`
with `threshold = 0.5`, `ratio = 4.0`, applied to the smoothed envelope. -/
def compressCurve {α : Type} [LinearOrderedField α] (s : α) : α :=
  if 1 / 2 < s then 1 / 2 + (s - 1 / 2) / 4 else s

/-- The per-sample gain of `_apply_compression` (line 211):
`np.where(env_smooth > 0, compressed / env_smooth, 1.0)`. -/
def compGain {α : Type} [LinearOrderedField α] (s : α) : α :=
  if 0 < s then compressCurve s / s else 1

/-- `_apply_compression` (lines 191-212).  `smooth` stands for
`scipy.signal.savgol_filter(envelope, 101, 3)`; with its default
`mode='interp'` scipy raises when the input is shorter than the window
length 101, which is the error branch here.  The claims proved below
depend only on the smoother's length preservation, supplied as a
hypothesis where needed. -/
def apply_compression {α : Type} [LinearOrderedField α]
    (smooth : List α → List α) (y : List α) : Except Unit (List α) :=
  let envelope := y.map (fun x => |x|)
  if envelope.length < 101 then .error ()
  else
    let envelope_smooth := smooth envelope
    .ok (List.zipWith (fun x g => x * g) y (envelope_smooth.map compGain))

/-- A digital filter specification: type, order and critical
frequency/frequencies as fractions of the Nyquist frequency. -/
inductive FilterKind : Type
  | high
  | low
  | band

structure FilterSpec (α : Type) : Type where
  order : ℕ
  kind : FilterKind
  w1 : α
  w2 : α

/-- Coefficient count of `scipy.signal.butter`: `order + 1` for low/high
pass, `2 * order + 1` for band pass. -/
def numCoeffs {α : Type} (s : FilterSpec α) : ℕ :=
  match s.kind with
  | .band => 2 * s.order + 1
  | _ => s.order + 1

/-- `scipy.signal.butter`'s validation of critical frequencies: it raises
unless `0 < Wn < 1` (for band filters, `0 < lo < hi < 1`). -/
def butterValid {α : Type} [LinearOrderedField α] (s : FilterSpec α) : Bool :=
  match s.kind with
  | .band => decide (0 < s.w1) && decide (s.w1 < s.w2) && decide (s.w2 < 1)
  | _ => decide (0 < s.w1) && decide (s.w1 < 1)

/-- Design a Butterworth filter and apply it with zero phase
(`scipy.signal.butter` followed by `scipy.signal.filtfilt`).  `impl` is
the numeric kernel; `filtfilt`'s default padding requires the input to be
longer than `padlen = 3 * max(len(a), len(b)) = 3 * numCoeffs` and raises
otherwise, and `butter` validates the critical frequencies first. -/
def applyZeroPhase {α : Type} [LinearOrderedField α]
    (impl : FilterSpec α → List α → List α) (s : FilterSpec α)
    (x : List α) : Except Unit (List α) :=
  if butterValid s && decide (3 * numCoeffs s < x.length) then .ok (impl s x)
  else .error ()

/-- `_reduce_noise` (lines 160-171): try the `noisereduce` primary path
(`primary`, an external kernel that may raise); on any failure fall back
to a zero-phase order-4 high-pass Butterworth filter at 80 Hz.  An
exception raised inside the fallback itself propagates to the caller. -/
def reduce_noise {α : Type} [LinearOrderedField α]
    (primary : List α → ℕ → Except Unit (List α))
    (impl : FilterSpec α → List α → List α) (y : List α) (sr : ℕ) :
    Except Unit (List α) :=
  match primary y sr with
  | .ok z => .ok z
  | .error _ => applyZeroPhase impl ⟨4, .high, 80 / ((sr : α) / 2), 0⟩ y

/-- The branch condition at line 235 of `_apply_voice_eq`:
`low_pass = 8000 / nyquist; if low_pass < 1.0` where `nyquist = sr / 2`
is the Nyquist frequency of the INPUT sample rate.  For integer `sr` the
floating-point comparison agrees with the exact rational one. -/
def lpCond (sr : ℕ) : Bool :=
  decide ((8000 : ℚ) / ((sr : ℚ) / 2) < 1)

/-- `_apply_voice_eq` (lines 214-239): order-2 high-pass at 80 Hz, then an
order-2 band-pass boost at 2-3 kHz added back at gain 0.3, then an order-4
low-pass at 8 kHz applied only under `lpCond`. -/
def apply_voice_eq {α : Type} [LinearOrderedField α]
    (impl : FilterSpec α → List α → List α) (y : List α) (sr : ℕ) :
    Except Unit (List α) :=
  match applyZeroPhase impl ⟨2, .high, 80 / ((sr : α) / 2), 0⟩ y with
  | .error e => .error e
  | .ok y_hp =>
    match applyZeroPhase impl
        ⟨2, .band, 2000 / ((sr : α) / 2), 3000 / ((sr : α) / 2)⟩ y_hp with
    | .error e => .error e
    | .ok boost =>
      let y_eq := List.zipWith (fun a b => a + (3 / 10) * b) y_hp boost
      if lpCond sr then
        applyZeroPhase impl ⟨4, .low, 8000 / ((sr : α) / 2), 0⟩ y_eq
      else .ok y_eq

/-- Lines 144-147 of `enhance_audio`: resample to the fixed target sample
rate 22050 unless the input is already at it.  `resampleImpl` stands for
`librosa.resample`. -/
def resampleStep {α : Type} [LinearOrderedField α]
    (resampleImpl : List α → ℕ → List α) (y : List α) (sr : ℕ) : List α :=
  if sr = 22050 then y else resampleImpl y sr

/-- The enhancement stages after noise reduction (lines 134-147 of
`enhance_audio`): normalization, compression, voice EQ, resampling. -/
noncomputable def postDenoise
    (impl : FilterSpec ℝ → List ℝ → List ℝ) (smooth : List ℝ → List ℝ)
    (resampleImpl : List ℝ → ℕ → List ℝ) (y : List ℝ) (sr : ℕ) :
    Except Unit (List ℝ) :=
  match normalize_audio y with
  | .error e => .error e
  | .ok y2 =>
    match apply_compression smooth y2 with
    | .error e => .error e
    | .ok y3 =>
      match apply_voice_eq impl y3 sr with
      | .error e => .error e
      | .ok y4 => .ok (resampleStep resampleImpl y4 sr)

/-- `enhance_audio` (lines 125-158).  The whole stage chain runs inside a
`try`; on ANY exception the `except` branch returns the original input
path (line 158), so the function always returns normally.  On success a
fresh output path is returned (line 154). -/
noncomputable def enhance_audio
    (primary : List ℝ → ℕ → Except Unit (List ℝ))
    (impl : FilterSpec ℝ → List ℝ → List ℝ) (smooth : List ℝ → List ℝ)
    (resampleImpl : List ℝ → ℕ → List ℝ)
    (input_path output_path : String) (y : List ℝ) (sr : ℕ) :
    Except Unit String :=
  match reduce_noise primary impl y sr with
  | .error _ => .ok input_path
  | .ok y1 =>
    match postDenoise impl smooth resampleImpl y1 sr with
    | .error _ => .ok input_path
    | .ok _ => .ok output_path

/-- The noise segment length of `_estimate_noise_level` (lines 85-86):
`noise_duration = min(0.5, len(y) / sr / 4)`, then
`noise_samples = int(noise_duration * sr)` (truncation; the value is
nonnegative, so truncation is the floor). -/
def noiseSamples (len sr : ℕ) : ℕ :=
  Int.toNat ⌊min ((1 : ℚ) / 2) ((len : ℚ) / (sr : ℚ) / 4) * (sr : ℚ)⌋

/-- `_estimate_noise_level` (lines 82-98): RMS of the concatenation of the
first and last `noise_samples` samples (`y[:n]` and `y[-n:]`), clamped to
at most 1; fallback 0.1 when the segment length is zero. -/
noncomputable def estimate_noise_level (y : List ℝ) (sr : ℕ) : ℝ :=
  let n := noiseSamples y.length sr
  if 0 < n then min (rms (y.take n ++ y.drop (y.length - n))) 1
  else 1 / 10

/-- Spec-side formulation of the noise segment length (spec section 4.2):
leading and trailing segments each of duration `min(0.5s, total/4)`,
converted to a whole number of samples. -/
def specNoiseSamples (len sr : ℕ) : ℕ :=
  Int.toNat ⌊min ((sr : ℚ) / 2) ((len : ℚ) / 4)⌋

/-- Spec-side formulation of the noise estimator (spec section 4.2):
concatenate the leading and trailing segments, compute their RMS, clamp
to at most 1.0; return the fixed fallback 0.1 when the segment length
rounds to zero samples. -/
noncomputable def specNoiseEstimate (y : List ℝ) (sr : ℕ) : ℝ :=
  let n := specNoiseSamples y.length sr
  if n = 0 then 1 / 10
  else min (rms (y.take n ++ y.drop (y.length - n))) 1

/-- Analysis frame length of librosa's STFT/RMS features. -/
def nFFT : ℕ := 2048

/-- Hop length of librosa's STFT/RMS features. -/
def hopLen : ℕ := 512

/-- Number of analysis frames of a centered (padded) signal of length
`n`: the padded length is `n + nFFT`, giving `(n + nFFT - nFFT) / hop + 1`
frames. -/
def frameCount (n : ℕ) : ℕ := n / hopLen + 1

/-- Centered zero padding (`nFFT/2` zeros on both sides), as used by
`librosa.feature.rms` and by `librosa.stft` with `pad_mode='constant'`. -/
def padCenter (y : List ℝ) : List ℝ :=
  List.replicate (nFFT / 2) 0 ++ y ++ List.replicate (nFFT / 2) 0

/-- Analysis frame `t` of the centered signal. -/
def frameAt (y : List ℝ) (t : ℕ) : List ℝ :=
  ((padCenter y).drop (hopLen * t)).take nFFT

/-- Per-frame RMS values, `librosa.feature.rms(y=y)[0]`. -/
noncomputable def frameRmsList (y : List ℝ) : List ℝ :=
  (List.range (frameCount y.length)).map (fun t => rms (frameAt y t))

/-- Line 36 of `analyze_audio`: `np.mean(rms)`. -/
noncomputable def avgRmsOf (y : List ℝ) : ℝ := npMean (frameRmsList y)

/-- Line 57 of `analyze_audio`: `np.max(rms) - np.min(rms)`. -/
noncomputable def dynamicRangeOf (y : List ℝ) : ℝ :=
  npMax (frameRmsList y) - npMin (frameRmsList y)

/-- Periodic Hann window of length `nFFT` (librosa's default STFT
window). -/
noncomputable def hannWin (n : ℕ) : ℝ :=
  1 / 2 - 1 / 2 * Real.cos (2 * Real.pi * n / nFFT)

/-- Magnitude of DFT bin `k` of a windowed frame. -/
noncomputable def dftMag (f : List ℝ) (k : ℕ) : ℝ :=
  Complex.abs (∑ n in Finset.range nFFT,
    ((hannWin n * f.getD n 0 : ℝ) : ℂ) *
      Complex.exp (-(2 * Real.pi * Complex.I * k * n) / nFFT))

/-- Number of non-negative frequency bins of the STFT. -/
def nBins : ℕ := nFFT / 2 + 1

/-- Column `t` of `np.abs(librosa.stft(y))`: the magnitudes of the
`nBins` frequency bins of frame `t`. -/
noncomputable def stftCol (y : List ℝ) (t : ℕ) : List ℝ :=
  (List.range nBins).map (dftMag (frameAt y t))

/-- All entries of the STFT magnitude matrix (for `np.mean(magnitude)`
and `np.std(magnitude)`: the order is irrelevant, the multiset of
entries is the matrix's). -/
noncomputable def stftFlat (y : List ℝ) : List ℝ :=
  ((List.range (frameCount y.length)).map (stftCol y)).flatten

/-- `librosa.fft_frequencies`: bin `k` corresponds to `k * sr / nFFT`
Hz. -/
noncomputable def fftFreq (sr k : ℕ) : ℝ := (sr : ℝ) * k / nFFT

/-- The smallest positive normal float32, the threshold of
`librosa.util.normalize`. -/
noncomputable def tinyF32 : ℝ := 1 / 2 ^ 126

/-- The divisor used by `librosa.util.normalize(S, norm=1)` on one
column: the column's 1-norm, replaced by 1 when below the threshold
(`fill=None` leaves sub-threshold columns unscaled). -/
noncomputable def normColDiv (c : List ℝ) : ℝ :=
  let s := (c.map (fun x => |x|)).sum
  if s < tinyF32 then 1 else s

/-- Spectral centroid of column `t`
(`librosa.feature.spectral_centroid`): frequencies weighted by the
1-normalized magnitudes. -/
noncomputable def spectralCentroidCol (sr : ℕ) (y : List ℝ) (t : ℕ) : ℝ :=
  let c := stftCol y t
  ((List.range nBins).map
    (fun k => fftFreq sr k * (c.getD k 0 / normColDiv c))).sum

/-- Line 49 of `analyze_audio`:
`np.mean(librosa.feature.spectral_centroid(y=y, sr=sr))`. -/
noncomputable def spectralCentroidOf (y : List ℝ) (sr : ℕ) : ℝ :=
  npMean ((List.range (frameCount y.length)).map (spectralCentroidCol sr y))

/-- Spectral bandwidth of column `t`
(`librosa.feature.spectral_bandwidth`, `p = 2`). -/
noncomputable def spectralBandwidthCol (sr : ℕ) (y : List ℝ) (t : ℕ) : ℝ :=
  let c := stftCol y t
  Real.sqrt (((List.range nBins).map
    (fun k => (c.getD k 0 / normColDiv c) *
      |fftFreq sr k - spectralCentroidCol sr y t| ^ 2)).sum)

/-- Line 50 of `analyze_audio`: mean spectral bandwidth. -/
noncomputable def spectralBandwidthOf (y : List ℝ) (sr : ℕ) : ℝ :=
  npMean ((List.range (frameCount y.length)).map (spectralBandwidthCol sr y))

/-- Spectral rolloff of column `t`
(`librosa.feature.spectral_rolloff`, `roll_percent = 0.85`): the lowest
bin frequency at which the cumulative magnitude reaches 85% of the
column total. -/
noncomputable def rolloffCol (sr : ℕ) (y : List ℝ) (t : ℕ) : ℝ :=
  let c := stftCol y t
  let thr := (85 / 100 : ℝ) * c.sum
  match (List.range nBins).find? (fun k => decide (thr ≤ (c.take (k + 1)).sum)) with
  | some k => fftFreq sr k
  | none => 0

/-- Line 51 of `analyze_audio`: mean spectral rolloff. -/
noncomputable def spectralRolloffOf (y : List ℝ) (sr : ℕ) : ℝ :=
  npMean ((List.range (frameCount y.length)).map (rolloffCol sr y))

/-- Edge padding (`np.pad(..., mode='edge')`), as used by
`librosa.feature.zero_crossing_rate`.  NumPy raises on an empty axis with
this mode, which is what makes `analyze_audio`'s body raise on an empty
buffer; `analyze_audio` below models that reachability explicitly, so the
`headD`/`getLastD` defaults here are never relied upon for empty input. -/
def padEdge (y : List ℝ) : List ℝ :=
  List.replicate (nFFT / 2) (y.headD 0) ++ y ++
    List.replicate (nFFT / 2) (y.getLastD 0)

/-- Frame `t` of the edge-padded signal. -/
def zcrFrameAt (y : List ℝ) (t : ℕ) : List ℝ :=
  ((padEdge y).drop (hopLen * t)).take nFFT

/-- The clipping applied by `librosa.zero_crossings`
(`threshold=1e-10`): magnitudes at or below the threshold count as
zero. -/
noncomputable def zcrClip (x : ℝ) : ℝ := if |x| ≤ 1 / 10 ^ 10 then 0 else x

/-- Zero-crossing rate of frame `t`: the fraction of adjacent sample
pairs whose (clipped) sign bits differ, out of `nFFT` positions (the
first position of the padded crossing array is always `False`). -/
noncomputable def zcrCol (y : List ℝ) (t : ℕ) : ℝ :=
  let f := zcrFrameAt y t
  (((List.range (nFFT - 1)).filter
    (fun n => decide (zcrClip (f.getD (n + 1) 0) < 0) !=
      decide (zcrClip (f.getD n 0) < 0))).length : ℝ) / nFFT

/-- Line 54 of `analyze_audio`:
`np.mean(librosa.feature.zero_crossing_rate(y))`. -/
noncomputable def zcrOf (y : List ℝ) : ℝ :=
  npMean ((List.range (frameCount y.length)).map (zcrCol y))

/-- `np.std` of a list. -/
noncomputable def npStd (l : List ℝ) : ℝ :=
  Real.sqrt (npMean (l.map (fun x => (x - npMean l) ^ 2)))

/-- `_calculate_signal_quality` (lines 100-123).  `np.mean(y**2)` is NaN
for an empty buffer (modelled by `npMeanOpt`); in that case the SNR score
and hence the final score are NaN (Python's `min(nan, 1.0)` returns nan,
and nan propagates through the weighted sum), modelled by `none`.  The
other two sub-scores are computed from the frame-RMS list and the STFT
magnitude grid, both of which are nonempty for every buffer. -/
noncomputable def calculate_signal_quality (y : List ℝ) (sr : ℕ)
    (noise_level : ℝ) : Option ℝ :=
  let snr_score : Option ℝ :=
    if 0 < noise_level then
      match npMeanOpt (y.map (fun x => x ^ 2)) with
      | none => none
      | some m => some (min (Real.sqrt m / noise_level / 10) 1)
    else some 1
  let fr := frameRmsList y
  let dynamic_score := min ((npMax fr - npMin fr) * 10) 1
  let mag := stftFlat y
  let clarity := npMean mag / (npStd mag + 1 / 10 ^ 8)
  let clarity_score := min (clarity / 100) 1
  snr_score.map (fun s =>
    min (s * (5 / 10) + dynamic_score * (3 / 10) + clarity_score * (2 / 10)) 1)

/-- The metrics record returned by `analyze_audio` on its success path
(lines 59-71).  `signal_quality` is an `Option` because NaN is reachable
there (it is `none` exactly when the quality score is NaN). -/
structure Metrics : Type where
  duration : ℝ
  sample_rate : ℕ
  channels : ℕ
  avg_rms : ℝ
  noise_level : ℝ
  signal_quality : Option ℝ
  spectral_centroid : ℝ
  spectral_bandwidth : ℝ
  spectral_rolloff : ℝ
  zero_crossing_rate : ℝ
  dynamic_range : ℝ

/-- Result of `analyze_audio`: either the metrics record, or the
error-fallback record of the `except` branch (lines 73-80), which has
only `duration`, `sample_rate`, `noise_level` and `signal_quality`
fields. -/
inductive AnalyzeResult : Type
  | metrics (m : Metrics)
  | failure (duration : ℝ) (sample_rate : ℕ) (noise_level signal_quality : ℝ)

/-- Whether an analysis result is the full metrics record. -/
def AnalyzeResult.isMetrics : AnalyzeResult → Bool
  | .metrics _ => true
  | .failure _ _ _ _ => false

/-- The metrics record of `analyze_audio`'s success path (lines 59-71),
split out as a definition. -/
noncomputable def metricsOf (y : List ℝ) (sr : ℕ) : Metrics :=
  { duration := (y.length : ℝ) / sr
    sample_rate := sr
    channels := 1
    avg_rms := avgRmsOf y
    noise_level := estimate_noise_level y sr
    signal_quality := calculate_signal_quality y sr (estimate_noise_level y sr)
    spectral_centroid := spectralCentroidOf y sr
    spectral_bandwidth := spectralBandwidthOf y sr
    spectral_rolloff := spectralRolloffOf y sr
    zero_crossing_rate := zcrOf y
    dynamic_range := dynamicRangeOf y }

/-- `analyze_audio` (lines 25-80).  For an EMPTY buffer the body raises
before returning: `np.pad(mode='edge')` inside
`librosa.feature.zero_crossing_rate` (line 54) rejects an empty axis (on
older librosa the centered reflect padding of `librosa.stft` at line 39
raises even earlier); the surrounding `try`/`except` then returns the
error-fallback record with `duration=0, sample_rate=0, noise_level=1.0,
signal_quality=0.0`.  For a nonempty buffer nothing in the body raises
and the full metrics record is returned. -/
noncomputable def analyze_audio (y : List ℝ) (sr : ℕ) : AnalyzeResult :=
  if y.isEmpty then .failure 0 0 1 0
  else .metrics (metricsOf y sr)

section HelperLemmas

variable {α : Type} [LinearOrderedField α]

theorem le_foldr_max (a : α) (t : List α) : a ≤ t.foldr max a := by
  induction t with
  | nil => exact le_refl a
  | cons b t ih => exact le_trans ih (le_max_right b _)

theorem foldr_min_le (a : α) (t : List α) : t.foldr min a ≤ a := by
  induction t with
  | nil => exact le_refl a
  | cons b t ih => exact le_trans (min_le_right b _) ih

theorem mem_le_foldr_max (a b : α) (t : List α) (hb : b ∈ t) :
    b ≤ t.foldr max a := by
  induction t with
  | nil => cases hb
  | cons c t ih =>
    rcases List.mem_cons.mp hb with rfl | h
    · exact le_max_left b _
    · exact le_trans (ih h) (le_max_right c _)

theorem le_npMax_of_mem {l : List α} {a : α} (h : a ∈ l) : a ≤ npMax l := by
  cases l with
  | nil => cases h
  | cons b t =>
    rcases List.mem_cons.mp h with rfl | h
    · exact le_foldr_max a t
    · exact mem_le_foldr_max b a t h

theorem npMin_le_npMax (l : List α) : npMin l ≤ npMax l := by
  cases l with
  | nil => exact le_refl 0
  | cons a t => exact le_trans (foldr_min_le a t) (le_foldr_max a t)

theorem foldr_max_zero {t : List α} (h : ∀ x ∈ t, x = 0) :
    t.foldr max (0 : α) = 0 := by
  induction t with
  | nil => rfl
  | cons b t ih =>
    show max b (t.foldr max 0) = 0
    rw [h b (List.mem_cons_self b t),
      ih (fun x hx => h x (List.mem_cons.mpr (Or.inr hx)))]
    exact max_self 0

theorem npMax_eq_zero_of_forall_zero {l : List α}
    (h : ∀ x ∈ l, x = 0) : npMax l = 0 := by
  cases l with
  | nil => rfl
  | cons a t =>
    have ha : a = 0 := h a (List.mem_cons_self a t)
    show t.foldr max a = 0
    rw [ha]
    exact foldr_max_zero (fun x hx => h x (List.mem_cons.mpr (Or.inr hx)))

theorem foldr_max_scale (c a : α) (hc : 0 ≤ c) (t : List α) :
    (t.map (fun x => x * c)).foldr max (a * c) = t.foldr max a * c := by
  induction t with
  | nil => rfl
  | cons b t ih =>
    show max (b * c) _ = max b _ * c
    rw [ih, max_mul_of_nonneg _ _ hc]

theorem npMax_scale (c : α) (hc : 0 ≤ c) (l : List α) :
    npMax (l.map (fun x => x * c)) = npMax l * c := by
  cases l with
  | nil => simp [npMax]
  | cons a t => exact foldr_max_scale c a hc t

theorem mean_eq_zero_of_forall_zero {l : List α} (h : ∀ x ∈ l, x = 0) :
    npMean l = 0 := by
  unfold npMean
  rw [List.sum_eq_zero h, zero_div]

theorem sum_nonneg_list {l : List α} (h : ∀ x ∈ l, 0 ≤ x) : 0 ≤ l.sum := by
  induction l with
  | nil => simp
  | cons a t ih =>
    simp only [List.sum_cons]
    have := h a (List.mem_cons_self a t)
    have := ih (fun x hx => h x (List.mem_cons.mpr (Or.inr hx)))
    linarith

theorem sum_pos_of_mem {l : List α} (h : ∀ x ∈ l, 0 ≤ x) {a : α}
    (ha : a ∈ l) (hpos : 0 < a) : 0 < l.sum := by
  induction l with
  | nil => cases ha
  | cons b t ih =>
    simp only [List.sum_cons]
    rcases List.mem_cons.mp ha with h1 | h1
    · have := sum_nonneg_list (fun x hx => h x (List.mem_cons.mpr (Or.inr hx)))
      subst h1; linarith
    · have hb := h b (List.mem_cons_self b t)
      have := ih (fun x hx => h x (List.mem_cons.mpr (Or.inr hx))) h1
      linarith

theorem npMean_nonneg {l : List α} (h : ∀ x ∈ l, 0 ≤ x) : 0 ≤ npMean l :=
  div_nonneg (sum_nonneg_list h) (Nat.cast_nonneg _)

theorem npMean_pos {l : List α} (h : ∀ x ∈ l, 0 ≤ x) {a : α} (ha : a ∈ l)
    (hpos : 0 < a) : 0 < npMean l := by
  apply div_pos (sum_pos_of_mem h ha hpos)
  exact_mod_cast List.length_pos.mpr (List.ne_nil_of_mem ha)

end HelperLemmas

theorem rms_nonneg (l : List ℝ) : 0 ≤ rms l := Real.sqrt_nonneg _

theorem rms_of_forall_zero {l : List ℝ} (h : ∀ x ∈ l, x = 0) : rms l = 0 := by
  unfold rms
  rw [mean_eq_zero_of_forall_zero, Real.sqrt_zero]
  intro x hx
  rcases List.mem_map.mp hx with ⟨a, ha, rfl⟩
  rw [h a ha]; ring

theorem rms_pos_of_mem {l : List ℝ} {a : ℝ} (ha : a ∈ l) (h : a ≠ 0) :
    0 < rms l := by
  unfold rms
  apply Real.sqrt_pos.mpr
  apply npMean_pos (l := l.map (fun x => x ^ 2))
  · intro x hx
    rcases List.mem_map.mp hx with ⟨b, _, rfl⟩
    positivity
  · exact List.mem_map.mpr ⟨a, ha, rfl⟩
  · positivity

theorem rms_scale (l : List ℝ) (c : ℝ) :
    rms (l.map (fun x => x * c)) = rms l * |c| := by
  unfold rms npMean
  rw [List.map_map]
  have h1 : ((fun x => x ^ 2) ∘ fun x => x * c) = fun x => x ^ 2 * c ^ 2 := by
    funext x; simp [mul_pow]
  rw [h1]
  have h2 : (l.map fun x => x ^ 2 * c ^ 2).sum = (l.map fun x => x ^ 2).sum * c ^ 2 := by
    induction l with
    | nil => simp
    | cons a t ih => simp [ih]; ring
  simp only [List.length_map]
  rw [h2]
  rw [show (l.map fun x => x ^ 2).sum * c ^ 2 / (l.length : ℝ)
      = (l.map fun x => x ^ 2).sum / (l.length : ℝ) * c ^ 2 by ring]
  rw [Real.sqrt_mul, Real.sqrt_sq_eq_abs]
  apply div_nonneg _ (Nat.cast_nonneg _)
  apply sum_nonneg_list
  intro x hx
  rcases List.mem_map.mp hx with ⟨b, _, rfl⟩
  positivity

theorem map_div_mul_self {α : Type} [LinearOrderedField α] (l : List α)
    {c : α} (hc : c ≠ 0) : l.map (fun x => x / c * c) = l := by
  have h : (fun x : α => x / c * c) = fun x => x := by
    funext x; field_simp
  rw [h]
  exact List.map_id' l

theorem peak_normalize_cons_pos {α : Type} [LinearOrderedField α]
    (a : α) (t : List α) (hp : 0 < npMax ((a :: t).map fun x => |x|)) :
    peak_normalize (a :: t) =
      .ok ((a :: t).map fun x =>
        x / npMax ((a :: t).map fun x => |x|) * (95 / 100)) := by
  unfold peak_normalize
  simp only [List.isEmpty_cons, Bool.false_eq_true, if_false, if_pos hp]

theorem peak_normalize_cons_neg {α : Type} [LinearOrderedField α]
    (a : α) (t : List α) (hp : ¬ 0 < npMax ((a :: t).map fun x => |x|)) :
    peak_normalize (a :: t) = .ok (a :: t) := by
  unfold peak_normalize
  simp only [List.isEmpty_cons, Bool.false_eq_true, if_false, if_neg hp]

theorem peak_normalize_peak {α : Type} [LinearOrderedField α]
    (a : α) (t : List α) (hp : 0 < npMax ((a :: t).map fun x => |x|)) :
    npMax ((((a :: t).map fun x =>
        x / npMax ((a :: t).map fun x => |x|) * (95 / 100))).map fun x => |x|)
      = 95 / 100 := by
  set p := npMax ((a :: t).map fun x => |x|) with hpdef
  have hc : (0 : α) < 95 / 100 / p := by positivity
  have hmap : (((a :: t).map fun x => x / p * (95 / 100)).map fun x => |x|)
      = ((a :: t).map fun x => |x|).map fun x => x * (95 / 100 / p) := by
    simp only [List.map_map]
    apply List.map_congr_left
    intro x _
    simp only [Function.comp]
    rw [show x / p * (95 / 100) = x * (95 / 100 / p) by ring]
    rw [abs_mul, abs_of_pos hc]
  rw [hmap, npMax_scale _ (le_of_lt hc)]
  rw [← hpdef]
  field_simp
  ring

/-- Claim C9: peak normalization is idempotent — applying the
peak-normalization step (divide by the maximum absolute sample, scale to
0.95) twice in succession yields the same buffer as applying it once,
since after one application the peak is already at the 0.95 target in
exact arithmetic (and the degenerate zero-peak and empty cases are fixed
points / stable errors). -/
theorem c9_peak_normalize_idempotent {α : Type} [LinearOrderedField α]
    (y : List α) :
    (peak_normalize y).bind peak_normalize = peak_normalize y := by
  cases y with
  | nil => rfl
  | cons a t =>
    by_cases hp : 0 < npMax ((a :: t).map fun x => |x|)
    · rw [peak_normalize_cons_pos a t hp]
      show peak_normalize _ = _
      set p := npMax ((a :: t).map fun x => |x|) with hpdef
      cases hmap : (a :: t).map fun x => x / p * (95 / 100) with
      | nil => simp at hmap
      | cons b u =>
        have hpk : npMax ((b :: u).map fun x => |x|) = 95 / 100 := by
          rw [← hmap, hpdef]
          exact peak_normalize_peak a t hp
        rw [peak_normalize_cons_pos b u (by rw [hpk]; norm_num)]
        rw [hpk]
        rw [map_div_mul_self _ (by norm_num : (95 / 100 : α) ≠ 0)]
    · rw [peak_normalize_cons_neg a t hp]
      show peak_normalize _ = _
      rw [peak_normalize_cons_neg a t hp]

/-- Claim C9 witness: the idempotence theorem applied at the concrete
buffer `[2]` over `ℚ`. -/
theorem c9_witness :
    (peak_normalize [(2 : ℚ)]).bind peak_normalize = peak_normalize [(2 : ℚ)] :=
  c9_peak_normalize_idempotent [(2 : ℚ)]

/-- Claim C3 counterexample: the low-pass branch condition of
`_apply_voice_eq` is `8000 / (sr / 2) < 1` with `sr` the INPUT sample
rate; at input sample rate 16000 Hz the condition is false and the
low-pass is skipped, refuting "applied for every input buffer regardless
of the input sample rate". -/
theorem c3_counterexample : lpCond 16000 = false := by
  unfold lpCond
  rw [decide_eq_false_iff_not]
  norm_num

/-- Claim C3 (amended): the final order-4 low-pass at 8000 Hz is applied
exactly when the INPUT Nyquist frequency `sr / 2` exceeds the cutoff,
i.e. iff the input sample rate exceeds 16000 Hz; it is not applied for
inputs at 16000 Hz or below. -/
theorem c3_lowpass_iff (sr : ℕ) (h : 0 < sr) :
    lpCond sr = true ↔ 16000 < sr := by
  unfold lpCond
  rw [decide_eq_true_eq]
  have hsr : (0 : ℚ) < (sr : ℚ) / 2 := by
    have : (0 : ℚ) < (sr : ℚ) := by exact_mod_cast h
    linarith
  rw [div_lt_one hsr]
  constructor
  · intro h2
    exact_mod_cast (by linarith : (16000 : ℚ) < (sr : ℚ))
  · intro h2
    have : (16000 : ℚ) < (sr : ℚ) := by exact_mod_cast h2
    linarith

/-- Claim C3 witness: at the target rate 22050 Hz the condition holds
(the filter runs), via the amended theorem. -/
theorem c3_witness : 0 < 22050 ∧ (lpCond 22050 = true ↔ 16000 < 22050) :=
  ⟨by norm_num, c3_lowpass_iff 22050 (by norm_num)⟩

theorem compressCurve_of_gt {α : Type} [LinearOrderedField α] {s : α}
    (h : 1 / 2 < s) : compressCurve s = 1 / 2 + (s - 1 / 2) / 4 := by
  unfold compressCurve
  rw [if_pos h]

theorem compressCurve_of_le {α : Type} [LinearOrderedField α] {s : α}
    (h : s ≤ 1 / 2) : compressCurve s = s := by
  unfold compressCurve
  rw [if_neg (not_lt.mpr h)]

theorem compressCurve_pos {α : Type} [LinearOrderedField α] {s : α}
    (h : 0 < s) : 0 < compressCurve s := by
  unfold compressCurve
  split_ifs with h2
  · linarith
  · exact h

theorem compressCurve_lt_self {α : Type} [LinearOrderedField α] {s : α}
    (h : 1 / 2 < s) : compressCurve s < s := by
  rw [compressCurve_of_gt h]
  linarith

theorem compGain_pos {α : Type} [LinearOrderedField α] (s : α) :
    0 < compGain s := by
  unfold compGain
  split_ifs with h
  · exact div_pos (compressCurve_pos h) h
  · norm_num

theorem compGain_eq_one_of_le {α : Type} [LinearOrderedField α] {s : α}
    (h : s ≤ 1 / 2) : compGain s = 1 := by
  unfold compGain
  split_ifs with h2
  · rw [compressCurve_of_le h, div_self (ne_of_gt h2)]
  · rfl

theorem compGain_lt_one_of_gt {α : Type} [LinearOrderedField α] {s : α}
    (h : 1 / 2 < s) : compGain s < 1 := by
  have hs : 0 < s := by linarith
  unfold compGain
  rw [if_pos hs]
  exact (div_lt_one hs).mpr (compressCurve_lt_self h)

theorem compGain_le_one {α : Type} [LinearOrderedField α] (s : α) :
    compGain s ≤ 1 := by
  rcases le_or_lt s (1 / 2) with h | h
  · exact le_of_eq (compGain_eq_one_of_le h)
  · exact le_of_lt (compGain_lt_one_of_gt h)

theorem apply_compression_ok {α : Type} [LinearOrderedField α]
    (smooth : List α → List α) (y : List α) (hy : 101 ≤ y.length) :
    apply_compression smooth y =
      .ok (List.zipWith (fun x g => x * g) y
        ((smooth (y.map fun x => |x|)).map compGain)) := by
  unfold apply_compression
  rw [if_neg]
  rw [List.length_map]
  exact not_lt.mpr hy

theorem getD_map_compGain {α : Type} [LinearOrderedField α]
    (l : List α) (i : ℕ) (hi : i < l.length) :
    (l.map compGain).getD i 0 = compGain (l.getD i 0) := by
  rw [List.getD_eq_getElem _ _ (by rw [List.length_map]; exact hi),
    List.getElem_map, List.getD_eq_getElem _ _ hi]

theorem zipWith_mul_getD {α : Type} [LinearOrderedField α]
    (y g : List α) (i : ℕ) (hi : i < y.length) (hg : g.length = y.length) :
    (List.zipWith (fun x v => x * v) y g).getD i 0 =
      y.getD i 0 * g.getD i 0 := by
  have hlen : i < (List.zipWith (fun x v => x * v) y g).length := by
    rw [List.length_zipWith, hg, min_self]
    exact hi
  rw [List.getD_eq_getElem _ _ hlen, List.getElem_zipWith,
    List.getD_eq_getElem _ _ hi, List.getD_eq_getElem _ _ (by rw [hg]; exact hi)]

/-- Claim C5 counterexample: on a buffer shorter than the length-101
smoothing window, `_apply_compression` raises (scipy's
`savgol_filter` with `mode='interp'` rejects inputs shorter than the
window), so there is no output buffer at all — refuting "for every
buffer ... the output buffer has the same length as the input". -/
theorem c5_counterexample :
    apply_compression (fun l => l) [(3 : ℚ) / 10] = .error () := rfl

/-- Claim C5 (amended): for every buffer of length at least 101 (the
smoothing window length; shorter buffers make the stage raise), and every
sample position: where the smoothed envelope exceeds the threshold 0.5
the compressed envelope equals `0.5 + (pre - 0.5) / 4`; where it is at
most the threshold it passes through unchanged; the per-sample gain is
`compressed / smoothed` where the smoothed envelope is positive and `1.0`
otherwise; the output is the input scaled by the gain and has the same
length as the input. -/
theorem c5_compressor_behaviour {α : Type} [LinearOrderedField α]
    (smooth : List α → List α) (hs : ∀ l, (smooth l).length = l.length)
    (y : List α) (hy : 101 ≤ y.length) (i : ℕ) (hi : i < y.length)
    (s : α) (hseq : s = (smooth (y.map fun x => |x|)).getD i 0) :
    ∃ out, apply_compression smooth y = .ok out ∧ out.length = y.length ∧
      (1 / 2 < s → compressCurve s = 1 / 2 + (s - 1 / 2) / 4) ∧
      (s ≤ 1 / 2 → compressCurve s = s) ∧
      compGain s = (if 0 < s then compressCurve s / s else 1) ∧
      out.getD i 0 = y.getD i 0 * compGain s := by
  have hglen : ((smooth (y.map fun x => |x|)).map compGain).length = y.length := by
    rw [List.length_map, hs, List.length_map]
  refine ⟨_, apply_compression_ok smooth y hy, ?_, fun h => compressCurve_of_gt h,
    fun h => compressCurve_of_le h, rfl, ?_⟩
  · rw [List.length_zipWith, hglen, min_self]
  · have hi2 : i < (smooth (y.map fun x => |x|)).length := by
      rw [hs, List.length_map]; exact hi
    rw [zipWith_mul_getD y _ i hi hglen, getD_map_compGain _ _ hi2, ← hseq]

/-- Claim C5 witness: the amended theorem applied over `ℚ` with the
identity smoother at the all-ones buffer of length 101, position 0. -/
theorem c5_witness :
    (∀ l : List ℚ, (id l).length = l.length) ∧
    101 ≤ (List.replicate 101 (1 : ℚ)).length ∧
    0 < (List.replicate 101 (1 : ℚ)).length ∧
    ((1 : ℚ) = (id ((List.replicate 101 (1 : ℚ)).map fun x => |x|)).getD 0 0) ∧
    (∃ out, apply_compression id (List.replicate 101 (1 : ℚ)) = .ok out ∧
      out.length = (List.replicate 101 (1 : ℚ)).length ∧
      ((1 : ℚ) / 2 < 1 → compressCurve (1 : ℚ) = 1 / 2 + ((1 : ℚ) - 1 / 2) / 4) ∧
      ((1 : ℚ) ≤ 1 / 2 → compressCurve (1 : ℚ) = 1) ∧
      compGain (1 : ℚ) = (if (0 : ℚ) < 1 then compressCurve (1 : ℚ) / 1 else 1) ∧
      out.getD 0 0 = (List.replicate 101 (1 : ℚ)).getD 0 0 * compGain 1) :=
  ⟨fun _ => rfl, by simp, by simp, by simp,
    c5_compressor_behaviour id (fun _ => rfl) _ (by simp) 0 (by simp) 1 (by simp)⟩

/-- Claim C10: the dynamics compressor never amplifies — for every buffer
long enough for the length-101 smoothing window and every index, the
per-sample gain lies in (0, 1]: it is exactly 1 where the smoothed
envelope is at or below the 0.5 threshold or non-positive, and strictly
between 0 and 1 where the smoothed envelope exceeds the threshold; hence
the output sample magnitude never exceeds the input sample magnitude. -/
theorem c10_compressor_never_amplifies {α : Type} [LinearOrderedField α]
    (smooth : List α → List α) (hs : ∀ l, (smooth l).length = l.length)
    (y : List α) (hy : 101 ≤ y.length) (i : ℕ) (hi : i < y.length)
    (s : α) (hseq : s = (smooth (y.map fun x => |x|)).getD i 0) :
    ∃ out, apply_compression smooth y = .ok out ∧
      0 < compGain s ∧ compGain s ≤ 1 ∧
      (s ≤ 1 / 2 ∨ s ≤ 0 → compGain s = 1) ∧
      (1 / 2 < s → 0 < compGain s ∧ compGain s < 1) ∧
      |out.getD i 0| ≤ |y.getD i 0| := by
  have hglen : ((smooth (y.map fun x => |x|)).map compGain).length = y.length := by
    rw [List.length_map, hs, List.length_map]
  refine ⟨_, apply_compression_ok smooth y hy, compGain_pos s, compGain_le_one s,
    ?_, fun h => ⟨compGain_pos s, compGain_lt_one_of_gt h⟩, ?_⟩
  · rintro (h | h)
    · exact compGain_eq_one_of_le h
    · exact compGain_eq_one_of_le (by linarith)
  · have hi2 : i < (smooth (y.map fun x => |x|)).length := by
      rw [hs, List.length_map]; exact hi
    have hgi : ((smooth (y.map fun x => |x|)).map compGain).getD i 0 = compGain s := by
      rw [getD_map_compGain _ _ hi2, ← hseq]
    rw [zipWith_mul_getD y _ i hi hglen, hgi, abs_mul]
    have h1 : |compGain s| ≤ 1 := by
      rw [abs_of_pos (compGain_pos s)]
      exact compGain_le_one s
    calc |y.getD i 0| * |compGain s| ≤ |y.getD i 0| * 1 :=
          mul_le_mul_of_nonneg_left h1 (abs_nonneg _)
      _ = |y.getD i 0| := mul_one _

/-- Claim C10 witness: the theorem applied over `ℚ` with the identity
smoother at the constant buffer of 101 samples of value 7/10 (smoothed
envelope 7/10 > 1/2, so the gain is strictly inside (0, 1)), position 0. -/
theorem c10_witness :
    (∀ l : List ℚ, (id l).length = l.length) ∧
    101 ≤ (List.replicate 101 ((7 : ℚ) / 10)).length ∧
    0 < (List.replicate 101 ((7 : ℚ) / 10)).length ∧
    ((7 : ℚ) / 10 =
      (id ((List.replicate 101 ((7 : ℚ) / 10)).map fun x => |x|)).getD 0 0) ∧
    (∃ out, apply_compression id (List.replicate 101 ((7 : ℚ) / 10)) = .ok out ∧
      0 < compGain ((7 : ℚ) / 10) ∧ compGain ((7 : ℚ) / 10) ≤ 1 ∧
      ((7 : ℚ) / 10 ≤ 1 / 2 ∨ (7 : ℚ) / 10 ≤ 0 → compGain ((7 : ℚ) / 10) = 1) ∧
      ((1 : ℚ) / 2 < 7 / 10 →
        0 < compGain ((7 : ℚ) / 10) ∧ compGain ((7 : ℚ) / 10) < 1) ∧
      |out.getD 0 0| ≤ |(List.replicate 101 ((7 : ℚ) / 10)).getD 0 0|) :=
  ⟨fun _ => rfl, by simp, by simp,
    by
      have h7 : |(7 : ℚ) / 10| = 7 / 10 := abs_of_pos (by norm_num)
      simp [h7],
    c10_compressor_never_amplifies id (fun _ => rfl) _ (by simp) 0 (by simp)
      ((7 : ℚ) / 10)
      (by
        have h7 : |(7 : ℚ) / 10| = 7 / 10 := abs_of_pos (by norm_num)
        simp [h7])⟩

/-- Claim C4 counterexample: when the primary spectral suppression raises
on a 10-sample buffer, the fallback high-pass also raises — scipy's
`filtfilt` rejects inputs not longer than `padlen = 15` for the order-4
filter — so the noise-reduction stage raises, refuting "the fallback
guarantees the noise-reduction stage never fails for any input buffer". -/
theorem c4_counterexample :
    reduce_noise (fun _ _ => .error ()) (fun _ x => x)
      (List.replicate 10 (0 : ℚ)) 22050 = .error () := by
  show applyZeroPhase (fun _ x => x) ⟨4, .high, 80 / ((22050 : ℚ) / 2), 0⟩
    (List.replicate 10 (0 : ℚ)) = .error ()
  unfold applyZeroPhase
  rw [if_neg]
  intro h
  have h2 := (Bool.and_eq_true _ _).mp h
  have h3 := of_decide_eq_true h2.2
  simp [numCoeffs] at h3

/-- Claim C4 (amended): whenever the primary spectral-domain noise
suppression raises, the noise-reduction stage applies the zero-phase
order-4 high-pass Butterworth filter with 80 Hz cutoff and returns a
buffer of the same length, PROVIDED the buffer is longer than
`filtfilt`'s padding length 15 and the sample rate exceeds 160 Hz (so the
normalized cutoff is a valid critical frequency); for shorter buffers or
lower sample rates the fallback itself raises, so the stage is not
failure-proof. -/
theorem c4_fallback_highpass {α : Type} [LinearOrderedField α]
    (primary : List α → ℕ → Except Unit (List α))
    (impl : FilterSpec α → List α → List α)
    (himpl : ∀ s x, (impl s x).length = x.length)
    (y : List α) (sr : ℕ) (hp : primary y sr = .error ())
    (hsr : 160 < sr) (hy : 15 < y.length) :
    reduce_noise primary impl y sr =
      .ok (impl ⟨4, .high, 80 / ((sr : α) / 2), 0⟩ y) ∧
    (impl ⟨4, .high, 80 / ((sr : α) / 2), 0⟩ y).length = y.length := by
  constructor
  · unfold reduce_noise
    rw [hp]
    unfold applyZeroPhase
    rw [if_pos]
    rw [Bool.and_eq_true]
    constructor
    · show butterValid (⟨4, .high, 80 / ((sr : α) / 2), 0⟩ : FilterSpec α) = true
      unfold butterValid
      rw [Bool.and_eq_true, decide_eq_true_eq, decide_eq_true_eq]
      have h0 : (0 : α) < (sr : α) := by
        have : (160 : α) < (sr : α) := by exact_mod_cast hsr
        linarith
      constructor
      · positivity
      · rw [div_lt_one (by linarith : (0 : α) < (sr : α) / 2)]
        have : (160 : α) < (sr : α) := by exact_mod_cast hsr
        linarith
    · rw [decide_eq_true_eq]
      show 3 * numCoeffs (⟨4, .high, 80 / ((sr : α) / 2), 0⟩ : FilterSpec α) < _
      unfold numCoeffs
      exact hy
  · exact himpl _ _

/-- Claim C4 witness: the amended theorem at a 16-sample buffer over `ℚ`
with an always-failing primary and the identity filter kernel. -/
theorem c4_witness :
    ((fun (_ : List ℚ) (_ : ℕ) => (Except.error () : Except Unit (List ℚ)))
      (List.replicate 16 (0 : ℚ)) 22050 = .error ()) ∧
    160 < 22050 ∧ 15 < (List.replicate 16 (0 : ℚ)).length ∧
    (reduce_noise (fun _ _ => .error ()) (fun _ x => x)
        (List.replicate 16 (0 : ℚ)) 22050 =
      .ok ((fun (_ : FilterSpec ℚ) (x : List ℚ) => x)
        ⟨4, .high, 80 / ((22050 : ℚ) / 2), 0⟩ (List.replicate 16 (0 : ℚ))) ∧
    ((fun (_ : FilterSpec ℚ) (x : List ℚ) => x)
        ⟨4, .high, 80 / ((22050 : ℚ) / 2), 0⟩
        (List.replicate 16 (0 : ℚ))).length =
      (List.replicate 16 (0 : ℚ)).length) :=
  ⟨rfl, by norm_num, by simp,
    c4_fallback_highpass (fun _ _ => .error ()) (fun _ x => x)
      (fun _ _ => rfl) (List.replicate 16 (0 : ℚ)) 22050 rfl
      (by norm_num) (by simp)⟩

theorem normalize_audio_zero_single : normalize_audio [(0 : ℝ)] = .ok [0] := by
  have h1 : peak_normalize [(0 : ℝ)] = .ok [0] := by
    unfold peak_normalize
    simp [npMax]
  unfold normalize_audio
  rw [h1]
  have h2 : rms [(0 : ℝ)] = 0 := by
    simp [rms, npMean]
  simp [h2]

theorem postDenoise_zero_single :
    postDenoise (fun _ x => x) id (fun z _ => z) [(0 : ℝ)] 22050 = .error () := by
  have h3 : apply_compression id [(0 : ℝ)] = .error () := rfl
  unfold postDenoise
  simp only [normalize_audio_zero_single, h3]

/-- Claim C1 counterexample: a single-sample buffer makes the compression
stage raise (buffer shorter than the smoothing window), yet
`enhance_audio` returns NORMALLY with the original input path — the
exception is caught inside `enhance_audio` itself (line 158), so no
`EnhancementFailed` error ever propagates to the caller, refuting "it
raises rather than returning normally". -/
theorem c1_counterexample :
    enhance_audio (fun z _ => .ok z) (fun _ x => x) id (fun z _ => z)
      "input.wav" "output.wav" [(0 : ℝ)] 22050 = .ok "input.wav" := by
  unfold enhance_audio
  have h1 : reduce_noise (fun z (_ : ℕ) => (Except.ok z : Except Unit (List ℝ)))
      (fun _ x => x) [(0 : ℝ)] 22050 = .ok [0] := rfl
  rw [h1]
  simp only [postDenoise_zero_single]

/-- Claim C1 (amended): when any enhancement stage other than noise
reduction raises, `enhance_audio` does NOT propagate the error — it
catches the exception internally and returns the original, unenhanced
input path normally; the fallback to the original input happens inside
the enhancement operation, not in its caller. -/
theorem c1_enhance_internal_fallback
    (primary : List ℝ → ℕ → Except Unit (List ℝ))
    (impl : FilterSpec ℝ → List ℝ → List ℝ) (smooth : List ℝ → List ℝ)
    (resampleImpl : List ℝ → ℕ → List ℝ)
    (input_path output_path : String) (y : List ℝ) (sr : ℕ) (y1 : List ℝ)
    (hok : reduce_noise primary impl y sr = .ok y1)
    (hfail : postDenoise impl smooth resampleImpl y1 sr = .error ()) :
    enhance_audio primary impl smooth resampleImpl input_path output_path y sr
      = .ok input_path := by
  unfold enhance_audio
  rw [hok]
  simp only [hfail]

/-- Claim C1 witness: the amended theorem at the concrete single-sample
buffer, with the hypotheses (noise reduction succeeds, a later stage
fails) discharged by evaluation. -/
theorem c1_witness :
    (reduce_noise (fun z (_ : ℕ) => (Except.ok z : Except Unit (List ℝ)))
      (fun _ x => x) [(0 : ℝ)] 22050 = .ok [0]) ∧
    (postDenoise (fun _ x => x) id (fun z _ => z) [(0 : ℝ)] 22050 = .error ()) ∧
    enhance_audio (fun z _ => .ok z) (fun _ x => x) id (fun z _ => z)
      "raw.wav" "enhanced.wav" [(0 : ℝ)] 22050 = .ok "raw.wav" :=
  ⟨rfl, postDenoise_zero_single,
    c1_enhance_internal_fallback _ _ _ _ "raw.wav" "enhanced.wav" _ _ [0]
      rfl postDenoise_zero_single⟩

/-- Claim C6: the normalizer runs peak normalization strictly before RMS
normalization (the definition of `normalize_audio` composes them in that
order); for every nonempty all-zero buffer both steps are no-ops and the
buffer is returned unchanged, and for every buffer containing at least
one nonzero sample the output has RMS exactly 0.2 in exact arithmetic and
the same length as the input. -/
theorem c6_normalizer (y : List ℝ) :
    (y ≠ [] → (∀ x ∈ y, x = 0) → normalize_audio y = .ok y) ∧
    ((∃ x ∈ y, x ≠ 0) → ∃ z, normalize_audio y = .ok z ∧ rms z = 2 / 10 ∧
      z.length = y.length) := by
  constructor
  · intro hne hz
    obtain ⟨a, t, rfl⟩ := List.exists_cons_of_ne_nil hne
    have hp : ¬ 0 < npMax ((a :: t).map fun x => |x|) := by
      rw [npMax_eq_zero_of_forall_zero]
      · exact lt_irrefl 0
      · intro x hx
        rcases List.mem_map.mp hx with ⟨b, hb, rfl⟩
        rw [hz b hb, abs_zero]
    have hpn : peak_normalize (a :: t) = .ok (a :: t) :=
      peak_normalize_cons_neg a t hp
    have hr : rms (a :: t) = 0 := rms_of_forall_zero hz
    unfold normalize_audio
    simp only [hpn, hr]
    norm_num
  · rintro ⟨x0, hx0, hx0ne⟩
    have hne : y ≠ [] := List.ne_nil_of_mem hx0
    obtain ⟨a, t, rfl⟩ := List.exists_cons_of_ne_nil hne
    have hp : 0 < npMax ((a :: t).map fun x => |x|) :=
      lt_of_lt_of_le (abs_pos.mpr hx0ne)
        (le_npMax_of_mem (List.mem_map.mpr ⟨x0, hx0, rfl⟩))
    have hpn : peak_normalize (a :: t) =
        .ok ((a :: t).map fun x =>
          x / npMax ((a :: t).map fun x => |x|) * (95 / 100)) :=
      peak_normalize_cons_pos a t hp
    have hmem : x0 / npMax ((a :: t).map fun x => |x|) * (95 / 100) ∈
        (a :: t).map fun x =>
          x / npMax ((a :: t).map fun x => |x|) * (95 / 100) :=
      List.mem_map.mpr ⟨x0, hx0, rfl⟩
    have hnz : x0 / npMax ((a :: t).map fun x => |x|) * (95 / 100) ≠ 0 := by
      apply mul_ne_zero
      · exact div_ne_zero hx0ne (ne_of_gt hp)
      · norm_num
    have hcr : 0 < rms ((a :: t).map fun x =>
        x / npMax ((a :: t).map fun x => |x|) * (95 / 100)) :=
      rms_pos_of_mem hmem hnz
    refine ⟨((a :: t).map fun x =>
        x / npMax ((a :: t).map fun x => |x|) * (95 / 100)).map
          (fun x => x * (2 / 10 / rms ((a :: t).map fun x =>
            x / npMax ((a :: t).map fun x => |x|) * (95 / 100)))), ?_, ?_, ?_⟩
    · unfold normalize_audio
      simp only [hpn]
      rw [if_pos hcr]
    · rw [rms_scale]
      rw [abs_of_pos (div_pos (by norm_num) hcr)]
      rw [mul_comm, div_mul_cancel₀ _ (ne_of_gt hcr)]
    · rw [List.length_map, List.length_map]

/-- Claim C6 witness: the theorem applied to the buffer `[3]`, which has
a nonzero sample. -/
theorem c6_witness :
    (∃ x ∈ [(3 : ℝ)], x ≠ 0) ∧
    (∃ z, normalize_audio [(3 : ℝ)] = .ok z ∧ rms z = 2 / 10 ∧
      z.length = ([(3 : ℝ)]).length) :=
  ⟨⟨3, by simp, by norm_num⟩,
    (c6_normalizer [(3 : ℝ)]).2 ⟨3, by simp, by norm_num⟩⟩

theorem noise_min_mul (len sr : ℕ) (h : 0 < sr) :
    min ((1 : ℚ) / 2) ((len : ℚ) / (sr : ℚ) / 4) * (sr : ℚ)
      = min ((sr : ℚ) / 2) ((len : ℚ) / 4) := by
  have hs : (0 : ℚ) < (sr : ℚ) := by exact_mod_cast h
  have hs' : ((sr : ℚ)) ≠ 0 := ne_of_gt hs
  rcases le_total ((1 : ℚ) / 2) ((len : ℚ) / (sr : ℚ) / 4) with hle | hle
  · rw [min_eq_left hle, min_eq_left]
    · ring
    · have h2 := mul_le_mul_of_nonneg_right hle (le_of_lt hs)
      calc (sr : ℚ) / 2 = 1 / 2 * (sr : ℚ) := by ring
        _ ≤ (len : ℚ) / (sr : ℚ) / 4 * (sr : ℚ) := h2
        _ = (len : ℚ) / 4 := by field_simp; ring
  · rw [min_eq_right hle, min_eq_right]
    · field_simp
      ring
    · have h2 := mul_le_mul_of_nonneg_right hle (le_of_lt hs)
      calc (len : ℚ) / 4 = (len : ℚ) / (sr : ℚ) / 4 * (sr : ℚ) := by
            field_simp; ring
        _ ≤ 1 / 2 * (sr : ℚ) := h2
        _ = (sr : ℚ) / 2 := by ring

theorem noiseSamples_eq_spec (len sr : ℕ) (h : 0 < sr) :
    noiseSamples len sr = specNoiseSamples len sr := by
  unfold noiseSamples specNoiseSamples
  rw [noise_min_mul len sr h]

/-- Claim C7: the noise estimator computes exactly what the spec
describes — the RMS of the concatenation of the leading and trailing
segments each of duration `min(0.5s, total_duration/4)` (converted to a
whole number of samples), clamped to at most 1.0, with the fixed fallback
0.1 when the segment duration rounds to zero samples.  Stated as an
equality between the embedding of `_estimate_noise_level` and the
spec-side formulation. -/
theorem c7_noise_estimator (y : List ℝ) (sr : ℕ) (h : 0 < sr) :
    estimate_noise_level y sr = specNoiseEstimate y sr := by
  simp only [estimate_noise_level, specNoiseEstimate]
  rw [noiseSamples_eq_spec y.length sr h]
  rcases Nat.eq_zero_or_pos (specNoiseSamples y.length sr) with h0 | h0
  · rw [h0]
    norm_num
  · rw [if_pos h0, if_neg (Nat.pos_iff_ne_zero.mp h0)]

/-- Claim C7 witness: the equality at an 8-sample buffer with sample rate
4 Hz, where the segment length is `int(min(0.5, 0.5) * 4) = 2` samples. -/
theorem c7_witness :
    0 < 4 ∧ estimate_noise_level [(1 : ℝ), 1, 1, 1, 1, 1, 1, 1] 4 =
      specNoiseEstimate [(1 : ℝ), 1, 1, 1, 1, 1, 1, 1] 4 :=
  ⟨by norm_num, c7_noise_estimator _ 4 (by norm_num)⟩

theorem stftFlat_nonneg (y : List ℝ) : ∀ v ∈ stftFlat y, 0 ≤ v := by
  intro v hv
  simp only [stftFlat] at hv
  rcases List.mem_flatten.mp hv with ⟨c, hc, hvc⟩
  rcases List.mem_map.mp hc with ⟨t, _, rfl⟩
  simp only [stftCol] at hvc
  rcases List.mem_map.mp hvc with ⟨k, _, rfl⟩
  simp only [dftMag]
  exact Complex.abs.nonneg _

theorem npStd_nonneg (l : List ℝ) : 0 ≤ npStd l := Real.sqrt_nonneg _

theorem npMeanOpt_of_ne_nil {α : Type} [LinearOrderedField α] {l : List α}
    (h : l ≠ []) : npMeanOpt l = some (npMean l) := by
  cases l with
  | nil => exact absurd rfl h
  | cons a t => rfl

/-- Claim C8 counterexample: for the empty buffer the noise estimate is
the positive fallback 0.1, so the quality scorer takes the SNR branch and
computes `np.sqrt(np.mean([]))`, which is NaN; the NaN propagates through
the clamps and the weighted sum, so the returned quality score is NaN
(`none`) — not a value in [0, 1], refuting "for every buffer". -/
theorem c8_counterexample :
    0 < estimate_noise_level [] 16000 ∧
    calculate_signal_quality [] 16000 (estimate_noise_level [] 16000) = none := by
  have hn : noiseSamples 0 16000 = 0 := by
    unfold noiseSamples
    norm_num
  have h1 : estimate_noise_level ([] : List ℝ) 16000 = 1 / 10 := by
    simp only [estimate_noise_level, List.length_nil, hn]
    norm_num
  constructor
  · rw [h1]; norm_num
  · rw [h1]
    simp only [calculate_signal_quality]
    rw [if_pos (by norm_num : (0 : ℝ) < 1 / 10)]
    rfl

/-- Claim C8 (amended): for every buffer and sample rate the noise-level
estimate lies in [0, 1]; the quality score (weighted sum 0.5/0.3/0.2 of
the clamped SNR, dynamic-range and clarity sub-scores, clamped to at most
1, with zero or non-positive noise level treated as a perfect SNR score)
lies in [0, 1] for every NONEMPTY buffer; on the empty buffer the quality
score is NaN (see the counterexample). -/
theorem c8_bounds (y : List ℝ) (sr : ℕ) (noise_level : ℝ) :
    (0 ≤ estimate_noise_level y sr ∧ estimate_noise_level y sr ≤ 1) ∧
    (y ≠ [] → ∃ q, calculate_signal_quality y sr noise_level = some q ∧
      0 ≤ q ∧ q ≤ 1) := by
  constructor
  · simp only [estimate_noise_level]
    split_ifs with h
    · exact ⟨le_min (rms_nonneg _) zero_le_one, min_le_right _ _⟩
    · norm_num
  · intro hy
    have hmap : y.map (fun x => x ^ 2) ≠ [] := by
      simpa using hy
    have hd0 : 0 ≤ min ((npMax (frameRmsList y) - npMin (frameRmsList y)) * 10) 1 :=
      le_min (mul_nonneg (sub_nonneg.mpr (npMin_le_npMax _)) (by norm_num))
        zero_le_one
    have hd1 : min ((npMax (frameRmsList y) - npMin (frameRmsList y)) * 10) 1 ≤ 1 :=
      min_le_right _ _
    have hcl0 : 0 ≤ min (npMean (stftFlat y) / (npStd (stftFlat y) + 1 / 10 ^ 8) / 100) 1 :=
      le_min (div_nonneg (div_nonneg (npMean_nonneg (stftFlat_nonneg y))
        (le_of_lt (add_pos_of_nonneg_of_pos (npStd_nonneg _) (by norm_num))))
        (by norm_num)) zero_le_one
    have hcl1 : min (npMean (stftFlat y) / (npStd (stftFlat y) + 1 / 10 ^ 8) / 100) 1 ≤ 1 :=
      min_le_right _ _
    simp only [calculate_signal_quality, npMeanOpt_of_ne_nil hmap]
    by_cases hn : 0 < noise_level
    · rw [if_pos hn]
      simp only [Option.map_some']
      refine ⟨_, rfl, ?_, min_le_right _ _⟩
      have hs0 : 0 ≤ min (Real.sqrt (npMean (y.map fun x => x ^ 2)) / noise_level / 10) 1 :=
        le_min (div_nonneg (div_nonneg (Real.sqrt_nonneg _) (le_of_lt hn))
          (by norm_num)) zero_le_one
      apply le_min _ zero_le_one
      have := mul_nonneg hs0 (by norm_num : (0:ℝ) ≤ 5 / 10)
      have := mul_nonneg hd0 (by norm_num : (0:ℝ) ≤ 3 / 10)
      have := mul_nonneg hcl0 (by norm_num : (0:ℝ) ≤ 2 / 10)
      linarith
    · rw [if_neg hn]
      simp only [Option.map_some']
      refine ⟨_, rfl, ?_, min_le_right _ _⟩
      apply le_min _ zero_le_one
      have := mul_nonneg hd0 (by norm_num : (0:ℝ) ≤ 3 / 10)
      have := mul_nonneg hcl0 (by norm_num : (0:ℝ) ≤ 2 / 10)
      linarith

/-- Claim C8 witness: the bounds at the nonempty buffer `[1]` with an
arbitrary positive noise level. -/
theorem c8_witness :
    ([(1 : ℝ)] ≠ []) ∧
    (∃ q, calculate_signal_quality [(1 : ℝ)] 22050 (3 / 10) = some q ∧
      0 ≤ q ∧ q ≤ 1) :=
  ⟨by simp, (c8_bounds [(1 : ℝ)] 22050 (3 / 10)).2 (by simp)⟩

theorem getD_zero_of_forall_zero {l : List ℝ} (hz : ∀ v ∈ l, v = 0) (n : ℕ) :
    l.getD n 0 = 0 := by
  rcases lt_or_ge n l.length with h | h
  · rw [List.getD_eq_getElem l 0 h]
    exact hz _ (List.getElem_mem h)
  · exact List.getD_eq_default l 0 h

theorem mem_padCenter_zero {y : List ℝ} (hz : ∀ x ∈ y, x = 0) :
    ∀ v ∈ padCenter y, v = 0 := by
  intro v hv
  unfold padCenter at hv
  rcases List.mem_append.mp hv with hv | hv
  · rcases List.mem_append.mp hv with hv | hv
    · exact List.eq_of_mem_replicate hv
    · exact hz v hv
  · exact List.eq_of_mem_replicate hv

theorem frameAt_zero {y : List ℝ} (hz : ∀ x ∈ y, x = 0) (t : ℕ) :
    ∀ v ∈ frameAt y t, v = 0 := by
  intro v hv
  exact mem_padCenter_zero hz v
    (List.mem_of_mem_drop (List.mem_of_mem_take hv))

theorem dftMag_zero {f : List ℝ} (hz : ∀ v ∈ f, v = 0) (k : ℕ) :
    dftMag f k = 0 := by
  unfold dftMag
  have h : ∀ n ∈ Finset.range nFFT,
      ((hannWin n * f.getD n 0 : ℝ) : ℂ) *
        Complex.exp (-(2 * Real.pi * Complex.I * k * n) / nFFT) = 0 := by
    intro n _
    rw [getD_zero_of_forall_zero hz, mul_zero]
    norm_num
  rw [Finset.sum_congr rfl h, Finset.sum_const_zero]
  exact Complex.abs.map_zero

theorem stftCol_zero {y : List ℝ} (hz : ∀ x ∈ y, x = 0) (t : ℕ) :
    ∀ v ∈ stftCol y t, v = 0 := by
  intro v hv
  simp only [stftCol] at hv
  rcases List.mem_map.mp hv with ⟨k, _, rfl⟩
  exact dftMag_zero (frameAt_zero hz t) k

theorem frameRmsList_zero {y : List ℝ} (hz : ∀ x ∈ y, x = 0) :
    ∀ v ∈ frameRmsList y, v = 0 := by
  intro v hv
  simp only [frameRmsList] at hv
  rcases List.mem_map.mp hv with ⟨t, _, rfl⟩
  exact rms_of_forall_zero (frameAt_zero hz t)

theorem foldr_min_zero {α : Type} [LinearOrderedField α] {t : List α}
    (h : ∀ x ∈ t, x = 0) : t.foldr min (0 : α) = 0 := by
  induction t with
  | nil => rfl
  | cons b t ih =>
    show min b (t.foldr min 0) = 0
    rw [h b (List.mem_cons_self b t),
      ih (fun x hx => h x (List.mem_cons.mpr (Or.inr hx)))]
    exact min_self 0

theorem npMin_eq_zero_of_forall_zero {α : Type} [LinearOrderedField α]
    {l : List α} (h : ∀ x ∈ l, x = 0) : npMin l = 0 := by
  cases l with
  | nil => rfl
  | cons a t =>
    have ha : a = 0 := h a (List.mem_cons_self a t)
    show t.foldr min a = 0
    rw [ha]
    exact foldr_min_zero (fun x hx => h x (List.mem_cons.mpr (Or.inr hx)))

theorem headD_zero {y : List ℝ} (hz : ∀ x ∈ y, x = 0) : y.headD 0 = 0 := by
  cases y with
  | nil => rfl
  | cons a t => exact hz a (List.mem_cons_self a t)

theorem getLastD_zero {y : List ℝ} (hz : ∀ x ∈ y, x = 0) :
    y.getLastD 0 = 0 := by
  cases y with
  | nil => rfl
  | cons a t =>
    rw [← List.getLast_eq_getLastD]
    have hm := List.getLast_mem (l := 0 :: a :: t) (by simp)
    rcases List.mem_cons.mp hm with h0 | h1
    · exact h0
    · exact hz _ h1

theorem padEdge_zero {y : List ℝ} (hz : ∀ x ∈ y, x = 0) :
    ∀ v ∈ padEdge y, v = 0 := by
  intro v hv
  unfold padEdge at hv
  rcases List.mem_append.mp hv with hv | hv
  · rcases List.mem_append.mp hv with hv | hv
    · rw [List.eq_of_mem_replicate hv]
      exact headD_zero hz
    · exact hz v hv
  · rw [List.eq_of_mem_replicate hv]
    exact getLastD_zero hz

theorem zcrFrameAt_zero {y : List ℝ} (hz : ∀ x ∈ y, x = 0) (t : ℕ) :
    ∀ v ∈ zcrFrameAt y t, v = 0 := by
  intro v hv
  exact padEdge_zero hz v (List.mem_of_mem_drop (List.mem_of_mem_take hv))

theorem zcrCol_zero {y : List ℝ} (hz : ∀ x ∈ y, x = 0) (t : ℕ) :
    zcrCol y t = 0 := by
  have hf : ∀ v ∈ zcrFrameAt y t, v = 0 := zcrFrameAt_zero hz t
  have hclip : zcrClip (0 : ℝ) = 0 := by simp [zcrClip]
  simp only [zcrCol]
  have hfilter : ((List.range (nFFT - 1)).filter
      (fun n => decide (zcrClip ((zcrFrameAt y t).getD (n + 1) 0) < 0) !=
        decide (zcrClip ((zcrFrameAt y t).getD n 0) < 0))) = [] := by
    apply List.filter_eq_nil_iff.mpr
    intro n _
    rw [getD_zero_of_forall_zero hf, getD_zero_of_forall_zero hf, hclip]
    simp
  rw [hfilter]
  simp

theorem spectralCentroidCol_zero {y : List ℝ} (hz : ∀ x ∈ y, x = 0)
    (sr t : ℕ) : spectralCentroidCol sr y t = 0 := by
  simp only [spectralCentroidCol]
  apply List.sum_eq_zero
  intro v hv
  rcases List.mem_map.mp hv with ⟨k, _, rfl⟩
  rw [getD_zero_of_forall_zero (stftCol_zero hz t), zero_div, mul_zero]

theorem spectralBandwidthCol_zero {y : List ℝ} (hz : ∀ x ∈ y, x = 0)
    (sr t : ℕ) : spectralBandwidthCol sr y t = 0 := by
  simp only [spectralBandwidthCol]
  rw [List.sum_eq_zero, Real.sqrt_zero]
  intro v hv
  rcases List.mem_map.mp hv with ⟨k, _, rfl⟩
  rw [getD_zero_of_forall_zero (stftCol_zero hz t), zero_div, zero_mul]

theorem rolloffCol_zero {y : List ℝ} (hz : ∀ x ∈ y, x = 0)
    (sr t : ℕ) : rolloffCol sr y t = 0 := by
  have hc : ∀ v ∈ stftCol y t, v = 0 := stftCol_zero hz t
  have hsum : (stftCol y t).sum = 0 := List.sum_eq_zero hc
  have htake : ((stftCol y t).take (0 + 1)).sum = 0 :=
    List.sum_eq_zero (fun v hv => hc v (List.mem_of_mem_take hv))
  simp only [rolloffCol]
  have hfind : (List.range nBins).find?
      (fun k => decide ((85 / 100 : ℝ) * (stftCol y t).sum ≤
        ((stftCol y t).take (k + 1)).sum)) = some 0 := by
    rw [show nBins = 1024 + 1 from rfl, List.range_succ_eq_map,
      List.find?_cons_of_pos]
    rw [decide_eq_true_eq, hsum, htake, mul_zero]
  rw [hfind]
  simp [fftFreq]

theorem npMean_map_zero {f : ℕ → ℝ} {n : ℕ} (h : ∀ t, f t = 0) :
    npMean ((List.range n).map f) = 0 := by
  apply mean_eq_zero_of_forall_zero
  intro v hv
  rcases List.mem_map.mp hv with ⟨t, _, rfl⟩
  exact h t

theorem calculate_signal_quality_isSome (y : List ℝ) (sr : ℕ) (noise : ℝ)
    (hy : y ≠ []) : ∃ q, calculate_signal_quality y sr noise = some q := by
  have hmap : y.map (fun x => x ^ 2) ≠ [] := by simpa using hy
  simp only [calculate_signal_quality, npMeanOpt_of_ne_nil hmap]
  by_cases hn : 0 < noise
  · rw [if_pos hn]
    exact ⟨_, rfl⟩
  · rw [if_neg hn]
    exact ⟨_, rfl⟩

/-- Claim C2 counterexample: on the EMPTY buffer the body of
`analyze_audio` raises and the `except` branch returns the error-fallback
record — with noise level 1.0 and WITHOUT any RMS or spectral metric
fields — not a metrics record with zero-valued RMS and spectral metrics,
refuting the claim for the empty buffer. -/
theorem c2_counterexample :
    analyze_audio [] 16000 = .failure 0 0 1 0 ∧
    (analyze_audio [] 16000).isMetrics = false := ⟨rfl, rfl⟩

/-- Claim C2 (amended): `analyze_audio` is total (never raises); for every
NONEMPTY buffer it returns the full metrics record, whose quality score
is a real number (never NaN), and when the buffer is all-zero (silent)
the RMS metric, the spectral centroid/bandwidth/rolloff, the
zero-crossing rate and the dynamic range are all 0.  For the empty buffer
it instead returns the error-fallback record (see the counterexample). -/
theorem c2_analyze (y : List ℝ) (sr : ℕ) (hy : y ≠ []) :
    analyze_audio y sr = .metrics (metricsOf y sr) ∧
    (∃ q, (metricsOf y sr).signal_quality = some q) ∧
    ((∀ x ∈ y, x = 0) →
      (metricsOf y sr).avg_rms = 0 ∧
      (metricsOf y sr).spectral_centroid = 0 ∧
      (metricsOf y sr).spectral_bandwidth = 0 ∧
      (metricsOf y sr).spectral_rolloff = 0 ∧
      (metricsOf y sr).zero_crossing_rate = 0 ∧
      (metricsOf y sr).dynamic_range = 0) := by
  have hne : y.isEmpty = false := by
    cases y with
    | nil => exact absurd rfl hy
    | cons a t => rfl
  refine ⟨?_, ?_, ?_⟩
  · simp only [analyze_audio, hne, Bool.false_eq_true, if_false]
  · show ∃ q, calculate_signal_quality y sr (estimate_noise_level y sr) = some q
    exact calculate_signal_quality_isSome y sr _ hy
  · intro hz
    refine ⟨?_, ?_, ?_, ?_, ?_, ?_⟩
    · show avgRmsOf y = 0
      exact mean_eq_zero_of_forall_zero (frameRmsList_zero hz)
    · show spectralCentroidOf y sr = 0
      exact npMean_map_zero (fun t => spectralCentroidCol_zero hz sr t)
    · show spectralBandwidthOf y sr = 0
      exact npMean_map_zero (fun t => spectralBandwidthCol_zero hz sr t)
    · show spectralRolloffOf y sr = 0
      exact npMean_map_zero (fun t => rolloffCol_zero hz sr t)
    · show zcrOf y = 0
      exact npMean_map_zero (fun t => zcrCol_zero hz t)
    · show dynamicRangeOf y = 0
      unfold dynamicRangeOf
      rw [npMax_eq_zero_of_forall_zero (frameRmsList_zero hz),
        npMin_eq_zero_of_forall_zero (frameRmsList_zero hz), sub_zero]

/-- Claim C2 witness: the amended theorem at the silent one-sample buffer
`[0]` at 16 kHz. -/
theorem c2_witness :
    ([(0 : ℝ)] ≠ []) ∧ (∀ x ∈ [(0 : ℝ)], x = 0) ∧
    (analyze_audio [(0 : ℝ)] 16000 = .metrics (metricsOf [(0 : ℝ)] 16000) ∧
     (∃ q, (metricsOf [(0 : ℝ)] 16000).signal_quality = some q) ∧
     ((∀ x ∈ [(0 : ℝ)], x = 0) →
       (metricsOf [(0 : ℝ)] 16000).avg_rms = 0 ∧
       (metricsOf [(0 : ℝ)] 16000).spectral_centroid = 0 ∧
       (metricsOf [(0 : ℝ)] 16000).spectral_bandwidth = 0 ∧
       (metricsOf [(0 : ℝ)] 16000).spectral_rolloff = 0 ∧
       (metricsOf [(0 : ℝ)] 16000).zero_crossing_rate = 0 ∧
       (metricsOf [(0 : ℝ)] 16000).dynamic_range = 0)) :=
  ⟨by simp, by simp, c2_analyze [(0 : ℝ)] 16000 (by simp)⟩
